import Mathlib

/-!
Verification of the process-hosting core of `bot.py`.

Python strings are embedded as `List Char` (named `Str`), Python `dict`s as
association lists, and the pieces of ambient OS state that the code reads
(filesystem probes, the process-spawn outcome, the working directory of the
host process, the current time) are passed in explicitly as parameters.
Every definition mirrors the corresponding function of `bot.py`; names are
kept where Lean allows it.
-/

namespace Oliver

/-- Python strings, embedded as lists of characters. -/
abbrev Str := List Char

/-! ### Python string primitives -/

/-- Python `s.startswith(pre)`. -/
def pyStartsWith : Str → Str → Bool
  | _, [] => true
  | [], _ :: _ => false
  | c :: cs, p :: ps => p == c && pyStartsWith cs ps

/-- Python `s.endswith(suf)`. -/
def pyEndsWith (s suf : Str) : Bool := pyStartsWith s.reverse suf.reverse

/-- Python `s.isdigit()` (restricted to ASCII digits): nonempty and all digits. -/
def pyIsDigit (s : Str) : Bool := !s.isEmpty && s.all Char.isDigit

/-- Python `s.split(sep, 1)` as a pair: the part before the first occurrence of
`sep` and the part after it (`(s, "")` when `sep` does not occur, which the
source only relies on after checking membership). -/
def splitFirst (sep : Char) : Str → Str × Str
  | [] => ([], [])
  | c :: cs =>
    if c = sep then ([], cs)
    else
      let r := splitFirst sep cs
      (c :: r.1, r.2)

/-- Python `s.split(sep)`: always returns at least one (possibly empty) chunk. -/
def pySplit (sep : Char) : Str → List Str
  | [] => [[]]
  | c :: cs =>
    let r := pySplit sep cs
    if c = sep then [] :: r
    else
      match r with
      | [] => [[c]]
      | h :: t => (c :: h) :: t

/-- Python `s.lower()` (ASCII). -/
def pyLower (s : Str) : Str := s.map Char.toLower

/-- Python `s.strip()`: remove leading and trailing whitespace. -/
def pyStrip (s : Str) : Str :=
  ((s.dropWhile Char.isWhitespace).reverse.dropWhile Char.isWhitespace).reverse

/-- Python `s.strip(c)` for a one-character set: remove every leading and
trailing occurrence of `c` (all of them, not a single layer). -/
def pyStripChar (c : Char) (s : Str) : Str :=
  ((s.dropWhile (· = c)).reverse.dropWhile (· = c)).reverse

/-- Python `s.replace(a, b)` for one-character `a`, `b`. -/
def pyReplaceChar (a b : Char) (s : Str) : Str :=
  s.map fun c => if c = a then b else c

/-- POSIX `os.path.join(a, b)`: an absolute `b` discards `a`; otherwise a
separator is inserted unless `a` is empty or already ends with one. -/
def pyJoin (a b : Str) : Str :=
  if pyStartsWith b ['/'] then b
  else if a = [] then b
  else if pyEndsWith a ['/'] then a ++ b
  else a ++ '/' :: b

/-! ### ID helpers (`bot.py` lines 53-65) -/

/-- `is_user_file_id`: `u<uid>|filename.ext` — starts with `u`, contains exactly
one `|`, and the text between `u` and `|` is all digits. -/
def is_user_file_id (tid : Str) : Bool :=
  pyStartsWith tid ['u'] && tid.contains '|' && tid.count '|' == 1
    && pyIsDigit ((splitFirst '|' tid).1.drop 1)

/-- `is_repo_id`: contains `|` and is not a user file id. -/
def is_repo_id (tid : Str) : Bool :=
  tid.contains '|' && !is_user_file_id tid

/-- The three target kinds of the spec's data model. -/
inductive Kind where
  | UserFile
  | Repo
  | Legacy
deriving DecidableEq, Repr

/-- Classification of a target identifier, following the branch order of
`resolve_paths`: user file, else repo, else legacy. -/
def classify (tid : Str) : Kind :=
  if is_user_file_id tid then .UserFile
  else if is_repo_id tid then .Repo
  else .Legacy

lemma user_file_contains_bar {tid : Str} (h : is_user_file_id tid = true) :
    tid.contains '|' = true := by
  simp only [is_user_file_id, Bool.and_eq_true] at h
  exact h.1.1.2

/-- C1: classification is total and mutually exclusive — `classify` always
returns exactly one of the three kinds, `is_user_file_id` and `is_repo_id`
are never both true, and a string is `Legacy` exactly when it contains no
`|` separator. -/
theorem C1_classification_total_exclusive (tid : Str) :
    (¬ (is_user_file_id tid = true ∧ is_repo_id tid = true))
      ∧ (classify tid = .UserFile ↔ is_user_file_id tid = true)
      ∧ (classify tid = .Repo ↔ is_repo_id tid = true)
      ∧ (classify tid = .Legacy ↔ tid.contains '|' = false) := by
  constructor
  · rintro ⟨hu, hr⟩
    simp only [is_repo_id, Bool.and_eq_true, Bool.not_eq_true'] at hr
    exact absurd hu (by simp [hr.2])
  refine ⟨?_, ?_, ?_⟩
  · unfold classify
    by_cases hu : is_user_file_id tid = true
    · simp [hu]
    · simp only [Bool.not_eq_true] at hu
      by_cases hr : is_repo_id tid = true
      · simp [hu, hr]
      · simp only [Bool.not_eq_true] at hr
        simp [hu, hr]
  · unfold classify
    by_cases hu : is_user_file_id tid = true
    · have hr : is_repo_id tid = false := by simp [is_repo_id, hu]
      simp [hu, hr]
    · simp only [Bool.not_eq_true] at hu
      by_cases hr : is_repo_id tid = true
      · simp [hu, hr]
      · simp only [Bool.not_eq_true] at hr
        simp [hu, hr]
  · unfold classify
    by_cases hu : is_user_file_id tid = true
    · have hbar := user_file_contains_bar hu
      simp only [hu, if_true]
      simp
      exact List.elem_iff.mp hbar
    · simp only [Bool.not_eq_true] at hu
      by_cases hr : is_repo_id tid = true
      · have hbar : tid.contains '|' = true := by
          simp only [is_repo_id, Bool.and_eq_true] at hr
          exact hr.1
        simp only [hu, Bool.false_eq_true, if_false, hr, if_true]
        simp
        exact List.elem_iff.mp hbar
      · have hbar : tid.contains '|' = false := by
          by_contra hb
          simp only [Bool.not_eq_false] at hb
          apply absurd hr
          simp only [is_repo_id, hb, hu]
          simp
        simp only [Bool.not_eq_true] at hr
        simp only [hu, Bool.false_eq_true, if_false, hr, if_true]
        simp only [true_iff]
        exact hbar

/-! ### Path resolution (`bot.py` lines 135-178) -/

/-- `UPLOAD_DIR = "scripts"`. -/
def UPLOAD_DIR : Str := "scripts".toList

/-- The five paths returned by `resolve_paths` (a tuple in the source). -/
structure ResolvedPaths where
  work_dir : Str
  script_path : Str
  env_path : Str
  req_path : Str
  full_script_path : Str
deriving DecidableEq, Repr

/-- `resolve_paths`: derive the workspace layout from the target identifier. -/
def resolve_paths (target_id : Str) : ResolvedPaths :=
  if is_user_file_id target_id then
    let u := (splitFirst '|' target_id).1
    let filename := (splitFirst '|' target_id).2
    let uid := u.drop 1
    let work_dir := pyJoin UPLOAD_DIR uid
    { work_dir := work_dir
      script_path := filename
      env_path := pyJoin work_dir ".env".toList
      req_path := pyJoin work_dir "requirements.txt".toList
      full_script_path := pyJoin work_dir filename }
  else if is_repo_id target_id then
    let repo := (splitFirst '|' target_id).1
    let file := (splitFirst '|' target_id).2
    let work_dir := pyJoin UPLOAD_DIR repo
    { work_dir := work_dir
      script_path := file
      env_path := pyJoin work_dir ".env".toList
      req_path := pyJoin work_dir "requirements.txt".toList
      full_script_path := pyJoin work_dir file }
  else
    { work_dir := UPLOAD_DIR
      script_path := target_id
      env_path := pyJoin UPLOAD_DIR (target_id ++ ".env".toList)
      req_path := pyJoin UPLOAD_DIR (target_id ++ "_req.txt".toList)
      full_script_path := pyJoin UPLOAD_DIR target_id }

/-! ### Path normalization (`os.path.abspath`) and `within_dir`

`os.path.abspath(p)` is `normpath(join(cwd, p))` where `cwd` is the absolute
current working directory of the host process; `cwd` is passed explicitly.
The model follows POSIX `normpath` on absolute paths (it does not reproduce
the leading-double-slash special case, which requires a root spelled `//`). -/

/-- One step of POSIX path normalization over a component list rooted at `/`:
empty components and `.` are dropped, `..` pops the previous component. -/
def normStep (acc : List Str) (c : Str) : List Str :=
  if c = [] ∨ c = ['.'] then acc
  else if c = ['.', '.'] then acc.dropLast
  else acc ++ [c]

/-- Normalize the component list of an absolute path. -/
def normComps (cs : List Str) : List Str := cs.foldl normStep []

/-- Render a normalized component list as an absolute path string. -/
def joinComps : List Str → Str
  | [] => []
  | [c] => c
  | c :: cs => c ++ '/' :: joinComps cs

/-- Render a normalized component list with the leading `/`. -/
def renderAbs (cs : List Str) : Str := '/' :: joinComps cs

/-- `os.path.abspath(p)` with explicit current working directory `cwd`. -/
def pyAbspath (cwd p : Str) : Str :=
  renderAbs (normComps (pySplit '/' (pyJoin cwd p)))

/-- `within_dir(base, p)`: `p`'s absolute path starts with `base`'s absolute
path followed by the separator, or equals it (`bot.py` lines 175-178). -/
def within_dir (cwd base p : Str) : Bool :=
  let base_abs := pyAbspath cwd base
  let p_abs := pyAbspath cwd p
  pyStartsWith p_abs (base_abs ++ ['/']) || p_abs == base_abs

/-! ### Ownership store (`bot.py` lines 108-132)

A Python `dict` loaded from `ownership.json`, embedded as an association
list with unique keys; the store is threaded explicitly instead of being
re-read from disk. -/

/-- Python `d[k] = v`: replace the binding if the key is present, else append. -/
def dictSet {α : Type} (d : List (Str × α)) (k : Str) (v : α) : List (Str × α) :=
  if (d.lookup k).isSome then
    d.map fun kv => if kv.1 == k then (k, v) else kv
  else d ++ [(k, v)]

/-- Python `del d[k]`. -/
def dictErase {α : Type} (d : List (Str × α)) (k : Str) : List (Str × α) :=
  d.filter fun kv => !(kv.1 == k)

/-- One persisted ownership record (`§6` schema:
`{owner, type, key, last_run, entry, created_at}`). -/
structure OwnRecord where
  owner : Int
  type : Str
  key : Str
  last_run : Bool
  entry : Option Str
  created_at : Int
deriving DecidableEq, Repr

/-- The ownership store: target id → record. -/
abbrev Store := List (Str × OwnRecord)

/-- `save_ownership_record`: `data[target_id] = record` then write back. -/
def save_ownership_record (store : Store) (target_id : Str) (record : OwnRecord) :
    Store :=
  dictSet store target_id record

/-- `delete_ownership`: remove the record if present. -/
def delete_ownership (store : Store) (target_id : Str) : Store :=
  dictErase store target_id

/-- `get_app_key`: `load_ownership().get(target_id, {}).get("key")`. -/
def get_app_key (store : Store) (target_id : Str) : Option Str :=
  (store.lookup target_id).map (·.key)

/-- `set_last_run`: update the `last_run` field when the record exists. -/
def set_last_run (store : Store) (target_id : Str) (value : Bool) : Store :=
  match store.lookup target_id with
  | some r => dictSet store target_id { r with last_run := value }
  | none => store

/-! ### Run-command detection (`bot.py` lines 200-247)

The filesystem reads made by `resolve_run_command` are abstracted into a
snapshot: which paths exist, the parse of `package.json` (`none` models a
raised exception, `some names` the keys of its `scripts` object), and the
sorted file list that `list_files_safe(work_dir, 200)` would return. -/

structure FS where
  exists_file : Str → Bool
  pkgScripts : Option (List Str)
  safe_files : List Str

/-- The inner `by_ext`: interpreter by the lowercased text after the last dot. -/
def by_ext (path_rel : Str) : List Str :=
  let ext := pyLower (((pySplit '.' path_rel).getLast?).getD [])
  if ext = "js".toList then ["node".toList, path_rel]
  else if ext = "sh".toList then ["bash".toList, path_rel]
  else ["python".toList, "-u".toList, path_rel]

/-- The fixed candidate entry-file list. -/
def candidates : List Str :=
  ["main.py".toList, "app.py".toList, "server.py".toList, "bot.py".toList,
   "index.js".toList, "server.js".toList, "start.sh".toList]

/-- The `npm start` short-circuit condition of `resolve_run_command`:
`package.json` exists, parses, declares a `start` script, and the explicit
relative path is absent (`None`) or ends in `.js`. -/
def manifest_start (fs : FS) (work_dir : Str) (script_rel : Option Str) : Bool :=
  fs.exists_file (pyJoin work_dir "package.json".toList) &&
    (match fs.pkgScripts with
     | some scripts =>
       scripts.contains "start".toList &&
         (match script_rel with
          | none => true
          | some r => pyEndsWith r ".js".toList)
     | none => false)

/-- `resolve_run_command(work_dir, script_rel)`; `none` models the
`(None, None)` "no runnable entry" result, and the `Option Str` in the
result is the chosen relative path (`none` for `npm start`). -/
def resolve_run_command (fs : FS) (work_dir : Str) (script_rel : Option Str) :
    Option (List Str × Option Str) :=
  if manifest_start fs work_dir script_rel then
    some (["npm".toList, "start".toList], none)
  else
    let probe : Option (List Str × Option Str) :=
      match candidates.find? (fun c => fs.exists_file (pyJoin work_dir c)) with
      | some c => some (by_ext c, some c)
      | none =>
        match fs.safe_files.find?
            (fun f => pyEndsWith f ".py".toList || pyEndsWith f ".js".toList
              || pyEndsWith f ".sh".toList) with
        | some f => some (by_ext f, some f)
        | none => none
    match script_rel with
    | some r => if r.isEmpty then probe else some (by_ext r, some r)
    | none => probe

/-! ### Environment builder (`bot.py` lines 250-260) -/

/-- An environment map (`os.environ` and its overlay), as an assoc list. -/
abbrev Env := List (Str × Str)

/-- The body of `build_env`'s loop for one line of the env file. -/
def envApplyLine (env : Env) (l : Str) : Env :=
  let l := pyStrip l
  if l.isEmpty || pyStartsWith l ['#'] || !l.contains '=' then env
  else
    let k := (splitFirst '=' l).1
    let v := (splitFirst '=' l).2
    dictSet env (pyStrip k) (pyStripChar '\'' (pyStripChar '"' (pyStrip v)))

/-- `build_env(env_path)`: start from the inherited environment and overlay
the env file line by line (`none` models a missing file). -/
def build_env (environ : Env) (envFile : Option (List Str)) : Env :=
  match envFile with
  | none => environ
  | some lines => lines.foldl envApplyLine environ

/-! ### Process management (`bot.py` lines 262-325)

A `Popen` handle is modelled as a pid plus the snapshot of its poll state
(`alive = true` models `poll() is None`).  The spawn outcome of
`subprocess.Popen` is an input: `some h` for success, `none` for a raised
exception. -/

structure Handle where
  pid : Nat
  alive : Bool
deriving DecidableEq, Repr

/-- One entry of the in-memory `running_processes` registry. -/
structure ProcEntry where
  process : Handle
  log : Str
  started_at : Nat
deriving DecidableEq, Repr

/-- The shared mutable state: the in-memory registry and the ownership store. -/
structure SysState where
  procs : List (Str × ProcEntry)
  store : Store
deriving DecidableEq, Repr

/-- `restart_process_background(target_id)`: stop the previous group
(best-effort, registry untouched), decide the command, persist the chosen
entry for repos, then spawn; on success install a registry entry and set
`last_run = True`, on spawn failure only log. -/
def restart_process_background (fs : FS) (spawn : Option Handle) (now : Nat)
    (st : SysState) (target_id : Str) : SysState :=
  let paths := resolve_paths target_id
  let record := st.store.lookup target_id
  let entry : Option Str := record.bind (·.entry)
  let pair :=
    if is_repo_id target_id then
      resolve_run_command fs paths.work_dir entry
    else
      resolve_run_command fs paths.work_dir (some paths.script_path)
  match pair with
  | none => st
  | some (_cmd, chosen) =>
    let store1 :=
      if is_repo_id target_id then
        match st.store.lookup target_id with
        | some r => dictSet st.store target_id { r with entry := chosen }
        | none => st.store
      else st.store
    let log_path := pyJoin UPLOAD_DIR (pyReplaceChar '|' '_' target_id ++ ".log".toList)
    match spawn with
    | some h =>
      { procs := dictSet st.procs target_id
          { process := h, log := log_path, started_at := now }
        store := set_last_run store1 target_id true }
    | none => { procs := st.procs, store := store1 }

/-- `stop_process(target_id)`: best-effort kill, delete the registry entry
when present, and always set `last_run = False`. -/
def stop_process (st : SysState) (target_id : Str) : SysState :=
  { procs := dictErase st.procs target_id
    store := set_last_run st.store target_id false }

/-! ### Record creation on upload and on entry selection
(`bot.py` lines 976-990 and 1161-1190) -/

/-- The ownership-record step of `receive_file`: a fresh `key` (the
`secrets.token_urlsafe(16)` draw is an input) and a brand-new record are
stored under `u<uid>|<fname>`, unconditionally. -/
def receive_file_record (store : Store) (uid : Nat) (fname : Str) (freshKey : Str)
    (now : Int) : Store :=
  save_ownership_record store ('u' :: (Nat.toDigits 10 uid) ++ '|' :: fname)
    { owner := uid
      type := "file".toList
      key := freshKey
      last_run := false
      entry := some fname
      created_at := now }

/-- The store step of `select_git_file`: move the placeholder record to
`<repo_name>|<filename>` setting its entry, or (fallback) create a fresh
record with a fresh key. -/
def select_git_file_store (store : Store) (old_tid repo_name filename : Str)
    (uid : Int) (freshKey : Str) (now : Int) : Store :=
  let new_tid := repo_name ++ '|' :: filename
  match store.lookup old_tid with
  | some old =>
    dictErase (dictSet store new_tid { old with entry := some filename }) old_tid
  | none =>
    save_ownership_record store new_tid
      { owner := uid
        type := "repo".toList
        key := freshKey
        last_run := false
        entry := some filename
        created_at := now }

/-! ### The `/status` endpoint (`bot.py` lines 430-444) -/

/-- `/status?script=..&key=..`: missing query parameters arrive as `""`. -/
def status_route (store : Store) (procs : List (Str × ProcEntry))
    (script key : Str) : Str × Nat :=
  if script.isEmpty then ("Specify script".toList, 400)
  else
    let real_key := get_app_key store script
    match real_key with
    | none => ("⛔ Forbidden".toList, 403)
    | some rk =>
      if rk.isEmpty || key ≠ rk then ("⛔ Forbidden".toList, 403)
      else
        match procs.lookup script with
        | some e =>
          if e.process.alive then
            ("✅ ".toList ++ script ++ " is running.".toList, 200)
          else ("❌ ".toList ++ script ++ " is stopped.".toList, 404)
        | none => ("❌ ".toList ++ script ++ " is stopped.".toList, 404)

/-! ### Watchdog (spec §4.6) -/

/-- The default alert cooldown of the spec, in seconds. -/
def ALERT_COOLDOWN : Nat := 180

/-- Modelled from the spec: the Watchdog component of §4.6 is absent from
`src/bot.py` (no periodic reconciliation loop exists there).  One "down"
detection for a desired-running target: if the target is outside its alert
cooldown window (no last-alert timestamp yet, or `cooldown` seconds have
elapsed since it), send a down alert, invoke Start, and mark the timestamp;
otherwise do nothing.  Returns `(alertSent, startInvoked, lastAlert')`. -/
def watchdog_down_step (cooldown now : Nat) (lastAlert : Option Nat) :
    Bool × Bool × Option Nat :=
  match lastAlert with
  | none => (true, true, some now)
  | some t =>
    if t + cooldown ≤ now then (true, true, some now)
    else (false, false, lastAlert)

/-! ### Association-list (Python dict) lemmas -/

lemma lookup_append_cases {α : Type} (l₁ l₂ : List (Str × α)) (k : Str) :
    (l₁ ++ l₂).lookup k
      = match l₁.lookup k with
        | some v => some v
        | none => l₂.lookup k := by
  induction l₁ with
  | nil => simp [List.lookup]
  | cons a t ih =>
    obtain ⟨a1, a2⟩ := a
    by_cases h : k = a1
    · subst h
      simp [List.lookup_cons]
    · have hb : (k == a1) = false := beq_eq_false_iff_ne.mpr h
      simp only [List.cons_append, List.lookup_cons, hb]
      exact ih

lemma lookup_map_replace_ne {α : Type} (d : List (Str × α)) (k k' : Str) (v : α)
    (h : k' ≠ k) :
    (d.map fun kv => if kv.1 == k then (k, v) else kv).lookup k' = d.lookup k' := by
  induction d with
  | nil => rfl
  | cons a t ih =>
    obtain ⟨a1, a2⟩ := a
    simp only [List.map]
    by_cases ha : a1 = k
    · subst ha
      rw [if_pos (by simp)]
      have hb1 : (k' == a1) = false := beq_eq_false_iff_ne.mpr h
      simp only [List.lookup_cons, hb1]
      exact ih
    · rw [if_neg (by simpa using beq_eq_false_iff_ne.mpr ha)]
      by_cases hk : k' = a1
      · subst hk
        simp [List.lookup_cons]
      · have hb : (k' == a1) = false := beq_eq_false_iff_ne.mpr hk
        simp only [List.lookup_cons, hb]
        exact ih

lemma lookup_map_replace_eq {α : Type} (d : List (Str × α)) (k : Str) (v : α)
    (hs : (d.lookup k).isSome = true) :
    (d.map fun kv => if kv.1 == k then (k, v) else kv).lookup k = some v := by
  induction d with
  | nil => simp at hs
  | cons a t ih =>
    obtain ⟨a1, a2⟩ := a
    simp only [List.map]
    by_cases ha : a1 = k
    · subst ha
      rw [if_pos (by simp)]
      simp [List.lookup_cons]
    · rw [if_neg (by simpa using beq_eq_false_iff_ne.mpr ha)]
      have hb : (k == a1) = false := beq_eq_false_iff_ne.mpr (fun he => ha he.symm)
      simp only [List.lookup_cons, hb]
      apply ih
      rw [List.lookup_cons] at hs
      simpa only [hb] using hs

lemma lookup_dictSet {α : Type} (d : List (Str × α)) (k : Str) (v : α) :
    (dictSet d k v).lookup k = some v := by
  unfold dictSet
  by_cases hs : (d.lookup k).isSome
  · simp only [hs, if_true]
    exact lookup_map_replace_eq d k v hs
  · simp only [hs, Bool.false_eq_true, if_false]
    rw [lookup_append_cases]
    have hnone : d.lookup k = none := by
      cases hl : d.lookup k
      · rfl
      · rw [hl] at hs; simp at hs
    rw [hnone]
    simp [List.lookup_cons]

lemma lookup_dictSet_ne {α : Type} (d : List (Str × α)) (k k' : Str) (v : α)
    (h : k' ≠ k) :
    (dictSet d k v).lookup k' = d.lookup k' := by
  unfold dictSet
  by_cases hs : (d.lookup k).isSome
  · simp only [hs, if_true]
    exact lookup_map_replace_ne d k k' v h
  · simp only [hs, Bool.false_eq_true, if_false]
    rw [lookup_append_cases]
    cases hl : d.lookup k'
    · have hb : (k' == k) = false := beq_eq_false_iff_ne.mpr h
      simp [List.lookup_cons, hb]
    · simp

lemma lookup_dictErase_ne {α : Type} (d : List (Str × α)) (k k' : Str)
    (h : k' ≠ k) :
    (dictErase d k).lookup k' = d.lookup k' := by
  induction d with
  | nil => rfl
  | cons a t ih =>
    obtain ⟨a1, a2⟩ := a
    by_cases ha : a1 = k
    · subst ha
      have hb : (k' == a1) = false := beq_eq_false_iff_ne.mpr h
      simp only [dictErase, List.filter, beq_self_eq_true, Bool.not_true]
      rw [show List.filter (fun kv => !(kv.1 == a1)) t = dictErase t a1 from rfl]
      simp only [List.lookup_cons, hb]
      exact ih
    · have hb2 : ((a1, a2).1 == k) = false := beq_eq_false_iff_ne.mpr ha
      simp only [dictErase, List.filter, hb2, Bool.not_false]
      rw [show List.filter (fun kv => !(kv.1 == k)) t = dictErase t k from rfl]
      by_cases hk : k' = a1
      · subst hk
        simp [List.lookup_cons]
      · have hb : (k' == a1) = false := beq_eq_false_iff_ne.mpr hk
        simp only [List.lookup_cons, hb]
        exact ih

lemma dictErase_of_none {α : Type} (d : List (Str × α)) (k : Str)
    (h : d.lookup k = none) : dictErase d k = d := by
  induction d with
  | nil => rfl
  | cons a t ih =>
    obtain ⟨a1, a2⟩ := a
    by_cases ha : k = a1
    · subst ha
      simp [List.lookup_cons] at h
    · have hb : (k == a1) = false := beq_eq_false_iff_ne.mpr ha
      rw [List.lookup_cons] at h
      simp only [hb] at h
      have hb2 : ((a1, a2).1 == k) = false :=
        beq_eq_false_iff_ne.mpr (fun he => ha he.symm)
      simp only [dictErase, List.filter, hb2, Bool.not_false]
      rw [show List.filter (fun kv => !(kv.1 == k)) t = dictErase t k from rfl]
      rw [ih h]

/-! ### C9: watchdog alert cooldown (spec-modelled, §4.6) -/

/-- C9: for a desired-running target detected as down with no prior alert,
the first detection alerts (and invokes Start, marking the timestamp); a
second detection within the cooldown window alerts no further (exactly one
alert for the two); a third detection after the window elapses alerts again
and again invokes Start. -/
theorem C9_watchdog_cooldown (cooldown t1 t2 t3 : Nat)
    (h12 : t1 ≤ t2) (h2 : t2 < t1 + cooldown) (h3 : t1 + cooldown ≤ t3) :
    watchdog_down_step cooldown t1 none = (true, true, some t1)
      ∧ watchdog_down_step cooldown t2 (some t1) = (false, false, some t1)
      ∧ watchdog_down_step cooldown t3 (some t1) = (true, true, some t3) := by
  refine ⟨rfl, ?_, ?_⟩
  · simp only [watchdog_down_step]
    rw [if_neg (by omega)]
  · simp only [watchdog_down_step]
    rw [if_pos h3]

/-- Witness for C9 at the default 180-second cooldown: detections at
times 0, 100 and 180. -/
theorem C9_watchdog_cooldown_witness :
    watchdog_down_step ALERT_COOLDOWN 0 none = (true, true, some 0)
      ∧ watchdog_down_step ALERT_COOLDOWN 100 (some 0) = (false, false, some 0)
      ∧ watchdog_down_step ALERT_COOLDOWN 180 (some 0) = (true, true, some 180) :=
  C9_watchdog_cooldown ALERT_COOLDOWN 0 100 180 (by decide) (by decide) (by decide)

/-! ### C10: `/status` checks the key before liveness -/

/-- C10: for any nonempty `script` and any `key` that differs from the
stored secret key (including when no record exists), `/status` answers the
fixed 403 response, independently of the registry, so two runs differing
only in the target's run state are indistinguishable under a wrong key. -/
theorem C10_status_wrong_key_uniform (store : Store)
    (procs1 procs2 : List (Str × ProcEntry)) (script key : Str)
    (hs : script ≠ [])
    (hk : ∀ rk, get_app_key store script = some rk → key ≠ rk) :
    status_route store procs1 script key = ("⛔ Forbidden".toList, 403)
      ∧ status_route store procs1 script key
          = status_route store procs2 script key := by
  have hempty : script.isEmpty = false := by
    cases script with
    | nil => exact absurd rfl hs
    | cons a l => rfl
  have main : ∀ procs : List (Str × ProcEntry),
      status_route store procs script key = ("⛔ Forbidden".toList, 403) := by
    intro procs
    unfold status_route
    rw [hempty]
    simp only [Bool.false_eq_true, if_false]
    cases hg : get_app_key store script with
    | none => simp
    | some rk =>
      have hne := hk rk hg
      simp [hne]
  exact ⟨main procs1, (main procs1).trans (main procs2).symm⟩

/-- Concrete ownership store for the C10 witness. -/
def statusStoreEx : Store :=
  [("u1|a.py".toList,
    { owner := 1, type := "file".toList, key := "sekret".toList,
      last_run := true, entry := some "a.py".toList, created_at := 0 })]

/-- Concrete registry (target running and alive) for the C10 witness. -/
def statusProcsEx : List (Str × ProcEntry) :=
  [("u1|a.py".toList,
    { process := { pid := 42, alive := true }, log := "l".toList, started_at := 0 })]

/-- Witness for C10: with the wrong key `"bad"`, the response is the fixed
403 whether the registry is empty or holds a live process for the target. -/
theorem C10_status_wrong_key_uniform_witness :
    status_route statusStoreEx [] "u1|a.py".toList "bad".toList
        = ("⛔ Forbidden".toList, 403)
      ∧ status_route statusStoreEx [] "u1|a.py".toList "bad".toList
          = status_route statusStoreEx statusProcsEx "u1|a.py".toList "bad".toList :=
  C10_status_wrong_key_uniform statusStoreEx [] statusProcsEx
    "u1|a.py".toList "bad".toList (by decide)
    (fun rk h => by
      have hk : get_app_key statusStoreEx "u1|a.py".toList = some "sekret".toList := by
        decide
      rw [hk] at h
      injection h with h2
      rw [← h2]
      decide)

/-! ### C8: stop on a non-running target -/

/-- C8: for a target with an ownership record but no registry entry,
`stop_process` is total (the model is a function — no error path), leaves
the registry unchanged, and sets `last_run = false` in the record. -/
theorem C8_stop_idempotent (st : SysState) (tid : Str) (r : OwnRecord)
    (hproc : st.procs.lookup tid = none)
    (hrec : st.store.lookup tid = some r) :
    (stop_process st tid).procs = st.procs
      ∧ ((stop_process st tid).store.lookup tid).map (·.last_run) = some false := by
  constructor
  · show dictErase st.procs tid = st.procs
    exact dictErase_of_none st.procs tid hproc
  · show ((set_last_run st.store tid false).lookup tid).map (·.last_run) = some false
    unfold set_last_run
    rw [hrec, lookup_dictSet]
    rfl

/-- Witness for C8: a concrete stopped target with a record. -/
theorem C8_stop_idempotent_witness :
    (stop_process
        { procs := []
          store := [("x.py".toList,
            { owner := 3, type := "file".toList, key := "k".toList,
              last_run := true, entry := none, created_at := 0 })] }
        "x.py".toList).procs = []
      ∧ ((stop_process
          { procs := []
            store := [("x.py".toList,
              { owner := 3, type := "file".toList, key := "k".toList,
                last_run := true, entry := none, created_at := 0 })] }
          "x.py".toList).store.lookup "x.py".toList).map (·.last_run)
        = some false :=
  C8_stop_idempotent
    { procs := []
      store := [("x.py".toList,
        { owner := 3, type := "file".toList, key := "k".toList,
          last_run := true, entry := none, created_at := 0 })] }
    "x.py".toList
    { owner := 3, type := "file".toList, key := "k".toList,
      last_run := true, entry := none, created_at := 0 }
    (by decide) (by decide)

/-! ### C4: start attempt with a failed spawn -/

/-- Filesystem snapshot with no files at all (no `package.json` in
particular), used by the C4 counterexample. -/
def emptyFS : FS := { exists_file := fun _ => false, pkgScripts := none, safe_files := [] }

/-- Counterexample to C4: for the user-file target `u1|a.py` whose record has
`last_run = false`, a start attempt whose spawn fails resolves a command
(`python -u a.py`) yet leaves `last_run = false` — not `true` as the claim
states — because `set_last_run(..., True)` sits inside the `try` block after
`Popen` and is skipped when the spawn raises. -/
theorem C4_counterexample :
    ((restart_process_background emptyFS none 5
        { procs := []
          store := [("u1|a.py".toList,
            { owner := 1, type := "file".toList, key := "k".toList,
              last_run := false, entry := some "a.py".toList, created_at := 0 })] }
        "u1|a.py".toList).store.lookup "u1|a.py".toList).map (·.last_run)
      = some false
      ∧ (restart_process_background emptyFS none 5
          { procs := []
            store := [("u1|a.py".toList,
              { owner := 1, type := "file".toList, key := "k".toList,
                last_run := false, entry := some "a.py".toList, created_at := 0 })] }
          "u1|a.py".toList).procs = [] := by
  constructor
  · decide
  · decide

/-- C4 as amended: when the spawn fails, the start operation creates no
Running Process Entry (the registry is exactly unchanged) and leaves the
record's `last_run` field unchanged — `last_run` is set to `true` only on a
successful spawn, so a failed start does not record the run intent. -/
theorem C4_amended_failed_spawn (fs : FS) (now : Nat) (st : SysState) (tid : Str) :
    (restart_process_background fs none now st tid).procs = st.procs
      ∧ ((restart_process_background fs none now st tid).store.lookup tid).map
            (·.last_run)
          = (st.store.lookup tid).map (·.last_run) := by
  by_cases hrepo : is_repo_id tid = true
  · cases hpair : resolve_run_command fs (resolve_paths tid).work_dir
        ((st.store.lookup tid).bind (·.entry)) with
    | none =>
      simp only [restart_process_background, hrepo, if_true, hpair]
      constructor <;> trivial
    | some pr =>
      obtain ⟨cmd0, chosen0⟩ := pr
      simp only [restart_process_background, hrepo, if_true, hpair]
      refine ⟨by trivial, ?_⟩
      cases hr : st.store.lookup tid with
      | some r =>
        simp only [hr]
        rw [lookup_dictSet]
        rfl
      | none =>
        simp only [hr]
  · have hrepo' : is_repo_id tid = false := by
      simpa using hrepo
    cases hpair : resolve_run_command fs (resolve_paths tid).work_dir
        (some (resolve_paths tid).script_path) with
    | none =>
      simp only [restart_process_background, hrepo', Bool.false_eq_true, if_false,
        hpair]
      constructor <;> trivial
    | some pr =>
      obtain ⟨cmd0, chosen0⟩ := pr
      simp only [restart_process_background, hrepo', Bool.false_eq_true, if_false,
        hpair]
      constructor <;> trivial

/-! ### C5: secret-key stability -/

/-- Counterexample to C5: re-performing an upload of `a.py` by user 1 when a
record for `u1|a.py` (key `"oldkey"`) already exists stores a brand-new
record whose key is the fresh draw `"newkey"` — `receive_file` regenerates
the key unconditionally. -/
theorem C5_counterexample :
    get_app_key
        [("u1|a.py".toList,
          { owner := 1, type := "file".toList, key := "oldkey".toList,
            last_run := true, entry := some "a.py".toList, created_at := 0 })]
        "u1|a.py".toList = some "oldkey".toList
      ∧ get_app_key
          (receive_file_record
            [("u1|a.py".toList,
              { owner := 1, type := "file".toList, key := "oldkey".toList,
                last_run := true, entry := some "a.py".toList, created_at := 0 })]
            1 "a.py".toList "newkey".toList 7)
          "u1|a.py".toList = some "newkey".toList
      ∧ ("newkey".toList : Str) ≠ "oldkey".toList := by
  refine ⟨?_, ?_, ?_⟩ <;> decide

lemma get_app_key_set_last_run (store : Store) (tid tid' : Str) (b : Bool) :
    get_app_key (set_last_run store tid b) tid' = get_app_key store tid' := by
  unfold set_last_run
  cases hr : store.lookup tid with
  | none => rfl
  | some r =>
    by_cases ht : tid' = tid
    · subst ht
      unfold get_app_key
      rw [lookup_dictSet, hr]
      rfl
    · unfold get_app_key
      rw [lookup_dictSet_ne _ _ _ _ ht]

lemma get_app_key_entry_update (store : Store) (tid tid' : Str) (r : OwnRecord)
    (chosen : Option Str) (hr : store.lookup tid = some r) :
    get_app_key (dictSet store tid { r with entry := chosen }) tid'
      = get_app_key store tid' := by
  by_cases ht : tid' = tid
  · subst ht
    unfold get_app_key
    rw [lookup_dictSet, hr]
    rfl
  · unfold get_app_key
    rw [lookup_dictSet_ne _ _ _ _ ht]

lemma get_app_key_restart (fs : FS) (spawn : Option Handle) (now : Nat)
    (st : SysState) (tid tid' : Str) :
    get_app_key (restart_process_background fs spawn now st tid).store tid'
      = get_app_key st.store tid' := by
  have store1_key : ∀ chosen : Option Str,
      get_app_key
          ((match st.store.lookup tid with
            | some r => dictSet st.store tid { r with entry := chosen }
            | none => st.store) : Store) tid'
        = get_app_key st.store tid' := by
    intro chosen
    cases hr : st.store.lookup tid with
    | none => rfl
    | some r => exact get_app_key_entry_update st.store tid tid' r chosen hr
  by_cases hrepo : is_repo_id tid = true
  · cases hpair : resolve_run_command fs (resolve_paths tid).work_dir
        ((st.store.lookup tid).bind (·.entry)) with
    | none =>
      simp only [restart_process_background, hrepo, if_true, hpair]
    | some pr =>
      obtain ⟨cmd0, chosen0⟩ := pr
      cases spawn with
      | none =>
        simp only [restart_process_background, hrepo, if_true, hpair]
        exact store1_key chosen0
      | some h =>
        simp only [restart_process_background, hrepo, if_true, hpair]
        rw [get_app_key_set_last_run]
        exact store1_key chosen0
  · have hrepo' : is_repo_id tid = false := by simpa using hrepo
    cases hpair : resolve_run_command fs (resolve_paths tid).work_dir
        (some (resolve_paths tid).script_path) with
    | none =>
      simp only [restart_process_background, hrepo', Bool.false_eq_true, if_false,
        hpair]
    | some pr =>
      obtain ⟨cmd0, chosen0⟩ := pr
      cases spawn with
      | none =>
        simp only [restart_process_background, hrepo', Bool.false_eq_true, if_false,
          hpair]
      | some h =>
        simp only [restart_process_background, hrepo', Bool.false_eq_true, if_false,
          hpair]
        rw [get_app_key_set_last_run]

/-- C5 as amended: the stored key is never changed by the operations that
mutate an existing record in place — `set_last_run`, a start attempt
(including its entry-point persistence for repos), `stop_process`, and
entry re-selection when the placeholder record exists (which moves the
record, key included, to the new id).  Only record re-creation (re-upload
or the re-clone fallback), which overwrites the whole record, installs a
fresh key. -/
theorem C5_amended_key_stability :
    (∀ (store : Store) (tid tid' : Str) (b : Bool),
        get_app_key (set_last_run store tid b) tid' = get_app_key store tid')
      ∧ (∀ (fs : FS) (spawn : Option Handle) (now : Nat) (st : SysState)
            (tid tid' : Str),
          get_app_key (restart_process_background fs spawn now st tid).store tid'
            = get_app_key st.store tid')
      ∧ (∀ (st : SysState) (tid tid' : Str),
          get_app_key (stop_process st tid).store tid' = get_app_key st.store tid')
      ∧ (∀ (store : Store) (old_tid repo_name filename : Str) (uid : Int)
            (freshKey : Str) (now : Int) (r : OwnRecord),
          store.lookup old_tid = some r →
          repo_name ++ '|' :: filename ≠ old_tid →
          get_app_key
              (select_git_file_store store old_tid repo_name filename uid
                freshKey now)
              (repo_name ++ '|' :: filename)
            = some r.key) := by
  refine ⟨get_app_key_set_last_run, get_app_key_restart, ?_, ?_⟩
  · intro st tid tid'
    exact get_app_key_set_last_run st.store tid tid' false
  · intro store old_tid repo_name filename uid freshKey now r hr hne
    simp only [select_git_file_store, hr]
    unfold get_app_key
    rw [lookup_dictErase_ne _ _ _ hne, lookup_dictSet]
    rfl

/-- Witness for C5's amended claim: a concrete placeholder record moved by
entry selection keeps its key, and `set_last_run` keeps a concrete key. -/
theorem C5_amended_key_stability_witness :
    ([("r_u1|PLACEHOLDER".toList,
        { owner := 1, type := "repo".toList, key := "pk".toList,
          last_run := false, entry := none, created_at := 0 })] : Store).lookup
        "r_u1|PLACEHOLDER".toList
      = some { owner := 1, type := "repo".toList, key := "pk".toList,
               last_run := false, entry := none, created_at := 0 }
      ∧ ("r_u1".toList ++ '|' :: "m.py".toList) ≠ "r_u1|PLACEHOLDER".toList
      ∧ get_app_key
          (select_git_file_store
            [("r_u1|PLACEHOLDER".toList,
              { owner := 1, type := "repo".toList, key := "pk".toList,
                last_run := false, entry := none, created_at := 0 })]
            "r_u1|PLACEHOLDER".toList "r_u1".toList "m.py".toList 1
            "fresh".toList 9)
          ("r_u1".toList ++ '|' :: "m.py".toList)
        = some "pk".toList :=
  ⟨by decide, by decide,
    C5_amended_key_stability.2.2.2
      [("r_u1|PLACEHOLDER".toList,
        { owner := 1, type := "repo".toList, key := "pk".toList,
          last_run := false, entry := none, created_at := 0 })]
      "r_u1|PLACEHOLDER".toList "r_u1".toList "m.py".toList 1 "fresh".toList 9
      { owner := 1, type := "repo".toList, key := "pk".toList,
        last_run := false, entry := none, created_at := 0 }
      (by decide) (by decide)⟩

/-! ### C7: the environment builder -/

/-- The value-stripping rule exactly as the claim words it: exactly a single
layer of surrounding quote characters (`"` or `'`) is removed. -/
def stripOneQuoteLayer (v : Str) : Str :=
  match v with
  | [] => []
  | c :: cs =>
    if (c = '"' ∨ c = '\'') ∧ cs ≠ [] ∧ cs.getLast? = some c then cs.dropLast
    else c :: cs

/-- Counterexample to C7: for the line `A=""b""` the code strips every
surrounding double quote (`.strip('"')`), yielding `b`, whereas stripping
exactly a single layer as the claim states would yield `"b"`. -/
theorem C7_counterexample :
    (build_env [] (some ["A=\"\"b\"\"".toList])).lookup "A".toList
        = some "b".toList
      ∧ stripOneQuoteLayer (pyStrip "\"\"b\"\"".toList) = "\"b\"".toList
      ∧ some ("b".toList : Str) ≠ some "\"b\"".toList := by
  refine ⟨?_, ?_, ?_⟩ <;> decide

/-- The parse of one env-file line, shared by `build_env` (via
`envApplyLine`) and by the spec-side `lastAssign`: `none` for a skipped
line, otherwise the trimmed key and the trimmed, quote-stripped value. -/
def parseEnvLine (l : Str) : Option (Str × Str) :=
  let l := pyStrip l
  if l.isEmpty || pyStartsWith l ['#'] || !l.contains '=' then none
  else
    some (pyStrip (splitFirst '=' l).1,
      pyStripChar '\'' (pyStripChar '"' (pyStrip (splitFirst '=' l).2)))

lemma envApplyLine_eq (env : Env) (l : Str) :
    envApplyLine env l
      = match parseEnvLine l with
        | some kv => dictSet env kv.1 kv.2
        | none => env := by
  unfold envApplyLine parseEnvLine
  by_cases h : ((pyStrip l).isEmpty || pyStartsWith (pyStrip l) ['#']
      || !(pyStrip l).contains '=') = true
  · simp only [h, if_true]
  · simp only [Bool.not_eq_true] at h
    simp only [h, Bool.false_eq_true, if_false]

/-- The claim's reading of the env file: scan the lines from the last one
backwards and return the value of the last processed line whose key is `k`. -/
def lastAssign (lines : List Str) (k : Str) : Option Str :=
  lines.reverse.findSome? fun l =>
    match parseEnvLine l with
    | some kv => if kv.1 = k then some kv.2 else none
    | none => none

lemma findSome?_append_cases {α β : Type} (l₁ l₂ : List α) (f : α → Option β) :
    (l₁ ++ l₂).findSome? f
      = match l₁.findSome? f with
        | some b => some b
        | none => l₂.findSome? f := by
  induction l₁ with
  | nil => simp [List.findSome?]
  | cons a t ih =>
    simp only [List.cons_append, List.findSome?]
    cases f a with
    | some b => simp
    | none => simpa using ih

/-- C7 as amended: `build_env` behaves exactly as the claim describes except
for the quote rule — blank lines, `#` lines and lines without `=` are
skipped, each processed line is split on the first `=` with key and value
trimmed, and for the value every leading and trailing `"` is removed and
then every leading and trailing `'` (all layers, each side independently,
not exactly one); for a key assigned on several lines the last processed
line wins, and a key present in the file overrides the inherited
environment, never the reverse. -/
theorem C7_amended_build_env (environ : Env) (lines : List Str) (k : Str) :
    (build_env environ (some lines)).lookup k
      = match lastAssign lines k with
        | some v => some v
        | none => environ.lookup k := by
  induction lines generalizing environ with
  | nil => simp [build_env, lastAssign, List.findSome?]
  | cons l ls ih =>
    show (List.foldl envApplyLine environ (l :: ls)).lookup k = _
    rw [List.foldl_cons]
    have h1 := ih (envApplyLine environ l)
    have h2 : lastAssign (l :: ls) k
        = match lastAssign ls k with
          | some v => some v
          | none =>
            match parseEnvLine l with
            | some kv => if kv.1 = k then some kv.2 else none
            | none => none := by
      unfold lastAssign
      rw [List.reverse_cons, findSome?_append_cases]
      cases hls : (ls.reverse.findSome? fun l =>
          match parseEnvLine l with
          | some kv => if kv.1 = k then some kv.2 else none
          | none => none) with
      | some v => rfl
      | none =>
        simp only [List.findSome?]
        cases hp : parseEnvLine l with
        | none => rfl
        | some kv =>
          by_cases hk : kv.1 = k
          · simp [hk]
          · simp [hk]
    rw [show (List.foldl envApplyLine (envApplyLine environ l) ls) =
        build_env (envApplyLine environ l) (some ls) from rfl] at *
    rw [h1, h2]
    cases hls : lastAssign ls k with
    | some v => rfl
    | none =>
      simp only
      rw [envApplyLine_eq]
      cases hp : parseEnvLine l with
      | none => rfl
      | some kv =>
        by_cases hk : kv.1 = k
        · subst hk
          show (dictSet environ kv.1 kv.2).lookup kv.1
              = match (if kv.1 = kv.1 then some kv.2 else none) with
                | some v => some v
                | none => environ.lookup kv.1
          rw [if_pos rfl]
          exact lookup_dictSet environ kv.1 kv.2
        · show (dictSet environ kv.1 kv.2).lookup k
              = match (if kv.1 = k then some kv.2 else none) with
                | some v => some v
                | none => environ.lookup k
          rw [if_neg hk]
          exact lookup_dictSet_ne environ kv.1 k kv.2 (fun he => hk he.symm)

/-! ### C6: run-command precedence -/

/-- The extension mapping exactly as the claim words it: a path ending in
`.js` → node, ending in `.sh` → bash, anything else → `python -u`. -/
def claimByExt (p : Str) : List Str :=
  if pyEndsWith p ".js".toList then ["node".toList, p]
  else if pyEndsWith p ".sh".toList then ["bash".toList, p]
  else ["python".toList, "-u".toList, p]

/-- A workspace whose `package.json` declares a `start` script. -/
def manifestFS : FS :=
  { exists_file := fun p => p == "wd/package.json".toList
    pkgScripts := some ["start".toList]
    safe_files := [] }

/-- A workspace with no manifest and a `main.py`. -/
def mainPyFS : FS :=
  { exists_file := fun p => p == "wd/main.py".toList
    pkgScripts := none
    safe_files := [] }

/-- Counterexample to C6: (1) the explicit path `a.JS` does not end in
`.js`, so per the claim it should map to `python -u`; the code lowercases
the text after the last dot and runs `node a.JS`.  (2) an explicit empty
path is not mapped by extension at all: the code falls through to the
candidate probe (`main.py` here), so the "explicit path wins" rule needs a
nonempty path. -/
theorem C6_counterexample :
    resolve_run_command manifestFS "wd".toList (some "a.JS".toList)
        = some (["node".toList, "a.JS".toList], some "a.JS".toList)
      ∧ claimByExt "a.JS".toList
          = ["python".toList, "-u".toList, "a.JS".toList]
      ∧ (["node".toList, "a.JS".toList] : List Str)
          ≠ ["python".toList, "-u".toList, "a.JS".toList]
      ∧ resolve_run_command mainPyFS "wd".toList (some [])
          = some (["python".toList, "-u".toList, "main.py".toList],
              some "main.py".toList) := by
  refine ⟨?_, ?_, ?_, ?_⟩ <;> decide

/-- C6 as amended: (1) for every nonempty explicit path `r` that does not
end in the exact lowercase `.js`, the explicit path wins over any manifest
— even one with a `start` script — and the result is `by_ext r` (the
interpreter chosen by the lowercased text after the last dot: `js` → node,
`sh` → bash, anything else → `python -u`); (2) with no explicit path and
the manifest rule not firing, the fixed candidate list `main.py, app.py,
server.py, bot.py, index.js, server.js, start.sh` is probed in exactly that
order and the first existing file wins, mapped by the same rule. -/
theorem C6_amended_precedence :
    (∀ (fs : FS) (work_dir r : Str), r ≠ [] →
        pyEndsWith r ".js".toList = false →
        resolve_run_command fs work_dir (some r) = some (by_ext r, some r))
      ∧ (∀ (fs : FS) (work_dir : Str) (c : Str),
          manifest_start fs work_dir none = false →
          candidates.find? (fun c => fs.exists_file (pyJoin work_dir c)) = some c →
          resolve_run_command fs work_dir none = some (by_ext c, some c)) := by
  constructor
  · intro fs work_dir r hne hjs
    have hempty : r.isEmpty = false := by
      cases r with
      | nil => exact absurd rfl hne
      | cons a l => rfl
    have hman : manifest_start fs work_dir (some r) = false := by
      unfold manifest_start
      cases fs.pkgScripts with
      | none => simp
      | some scripts =>
        have hjs' : pyEndsWith r ['.', 'j', 's'] = false := hjs
        simp [hjs']
    unfold resolve_run_command
    rw [hman]
    simp only [Bool.false_eq_true, if_false, hempty]
  · intro fs work_dir c hman hfind
    unfold resolve_run_command
    rw [hman]
    simp only [Bool.false_eq_true, if_false, hfind]

/-- Witness for C6's amended claim: the explicit path `x.py` beats the
`start`-script manifest, and with no explicit path the probe picks
`main.py`. -/
theorem C6_amended_precedence_witness :
    (("x.py".toList : Str) ≠ []
        ∧ pyEndsWith "x.py".toList ".js".toList = false
        ∧ resolve_run_command manifestFS "wd".toList (some "x.py".toList)
            = some (by_ext "x.py".toList, some "x.py".toList))
      ∧ (manifest_start mainPyFS "wd".toList none = false
          ∧ candidates.find?
              (fun c => mainPyFS.exists_file (pyJoin "wd".toList c))
            = some "main.py".toList
          ∧ resolve_run_command mainPyFS "wd".toList none
              = some (by_ext "main.py".toList, some "main.py".toList)) :=
  ⟨⟨by decide, by decide,
      C6_amended_precedence.1 manifestFS "wd".toList "x.py".toList
        (by decide) (by decide)⟩,
    ⟨by decide, by decide,
      C6_amended_precedence.2 mainPyFS "wd".toList "main.py".toList
        (by decide) (by decide)⟩⟩

/-! ### Path lemmas -/

lemma pySplit_ne_nil (c : Char) (s : Str) : pySplit c s ≠ [] := by
  cases s with
  | nil => simp [pySplit]
  | cons a t =>
    unfold pySplit
    by_cases h : a = c
    · simp [h]
    · simp only [h, if_false]
      cases pySplit c t with
      | nil => simp
      | cons x xs => simp

lemma pySplit_cons_sep (c : Char) (cs : Str) :
    pySplit c (c :: cs) = [] :: pySplit c cs := by
  rw [pySplit]
  show (if c = c then [] :: pySplit c cs
      else match pySplit c cs with
        | [] => [[c]]
        | h :: t => (c :: h) :: t)
    = [] :: pySplit c cs
  rw [if_pos rfl]

lemma pySplit_cons_ne (c x : Char) (cs : Str) (h : x ≠ c) :
    pySplit c (x :: cs)
      = match pySplit c cs with
        | [] => [[x]]
        | h :: t => (x :: h) :: t := by
  rw [pySplit]
  show (if x = c then [] :: pySplit c cs
      else match pySplit c cs with
        | [] => [[x]]
        | h :: t => (x :: h) :: t)
    = match pySplit c cs with
      | [] => [[x]]
      | h :: t => (x :: h) :: t
  rw [if_neg h]

lemma pySplit_append_sep (c : Char) (a b : Str) :
    pySplit c (a ++ c :: b) = pySplit c a ++ pySplit c b := by
  induction a with
  | nil =>
    show pySplit c (c :: b) = pySplit c [] ++ pySplit c b
    rw [pySplit_cons_sep]
    rfl
  | cons x xs ih =>
    by_cases h : x = c
    · subst h
      show pySplit x ((x :: xs) ++ x :: b) = pySplit x (x :: xs) ++ pySplit x b
      rw [List.cons_append, pySplit_cons_sep, pySplit_cons_sep, ih]
      rfl
    · rw [List.cons_append, pySplit_cons_ne c x _ h, pySplit_cons_ne c x xs h, ih]
      cases hx : pySplit c xs with
      | nil => exact absurd hx (pySplit_ne_nil c xs)
      | cons y ys => simp

lemma pySplit_of_not_mem (c : Char) (s : Str) (h : c ∉ s) : pySplit c s = [s] := by
  induction s with
  | nil => rfl
  | cons a t ih =>
    have ha : a ≠ c := fun he => h (he ▸ List.mem_cons_self a t)
    have ht : c ∉ t := fun hm => h (List.mem_cons_of_mem a hm)
    unfold pySplit
    simp only [ha, if_false, ih ht]

lemma not_mem_of_mem_pySplit (c : Char) (s : Str) (x : Str)
    (hx : x ∈ pySplit c s) : c ∉ x := by
  induction s generalizing x with
  | nil =>
    simp [pySplit] at hx
    simp [hx]
  | cons a t ih =>
    unfold pySplit at hx
    by_cases h : a = c
    · simp only [h, if_pos rfl] at hx
      rcases List.mem_cons.mp hx with h1 | h1
      · simp [h1]
      · exact ih x h1
    · simp only [h, if_false] at hx
      cases ht : pySplit c t with
      | nil => exact absurd ht (pySplit_ne_nil c t)
      | cons y ys =>
        rw [ht] at hx
        rcases List.mem_cons.mp hx with h1 | h1
        · subst h1
          intro hm
          rcases List.mem_cons.mp hm with h2 | h2
          · exact h h2.symm
          · have : y ∈ pySplit c t := ht ▸ List.mem_cons_self y ys
            exact ih y this h2
        · exact ih x (ht ▸ List.mem_cons_of_mem y h1)

lemma joinComps_append (B C : List Str) (hB : B ≠ []) (hC : C ≠ []) :
    joinComps (B ++ C) = joinComps B ++ '/' :: joinComps C := by
  induction B with
  | nil => exact absurd rfl hB
  | cons b bs ih =>
    cases bs with
    | nil =>
      cases C with
      | nil => exact absurd rfl hC
      | cons c cs => simp [joinComps]
    | cons b2 bs2 =>
      have hne : b2 :: bs2 ≠ [] := by simp
      have step : joinComps ((b :: b2 :: bs2) ++ C) = b ++ '/' :: joinComps ((b2 :: bs2) ++ C) := by
        simp only [List.cons_append]
        rfl
      rw [step, ih hne]
      simp [joinComps]

lemma pySplit_joinComps (B : List Str) (hB : B ≠ []) (hsl : ∀ x ∈ B, '/' ∉ x) :
    pySplit '/' (joinComps B) = B := by
  induction B with
  | nil => exact absurd rfl hB
  | cons b bs ih =>
    cases bs with
    | nil =>
      show pySplit '/' b = [b]
      exact pySplit_of_not_mem '/' b (hsl b (List.mem_cons_self b []))
    | cons b2 bs2 =>
      have hj : joinComps (b :: b2 :: bs2) = b ++ '/' :: joinComps (b2 :: bs2) := rfl
      rw [hj, pySplit_append_sep,
        pySplit_of_not_mem '/' b (hsl b (List.mem_cons_self b _)),
        ih (by simp) (fun x hx => hsl x (List.mem_cons_of_mem b hx))]
      rfl

/-- The components kept by normalization when no `..` is present. -/
def cleanComps (v : List Str) : List Str :=
  v.filter fun x => !(x == ([] : Str)) && !(x == ['.'])

lemma foldl_normStep_no_dotdot (v : List Str) (acc : List Str)
    (h : ∀ x ∈ v, x ≠ ['.', '.']) :
    v.foldl normStep acc = acc ++ cleanComps v := by
  induction v generalizing acc with
  | nil => simp [cleanComps]
  | cons x xs ih =>
    have hx : x ≠ ['.', '.'] := h x (List.mem_cons_self x xs)
    have hxs : ∀ y ∈ xs, y ≠ ['.', '.'] := fun y hy => h y (List.mem_cons_of_mem x hy)
    rw [List.foldl_cons, ih (normStep acc x) hxs]
    by_cases h1 : x = [] ∨ x = ['.']
    · have hstep : normStep acc x = acc := by
        unfold normStep
        rw [if_pos h1]
      have hclean : cleanComps (x :: xs) = cleanComps xs := by
        unfold cleanComps
        rw [List.filter_cons]
        rcases h1 with h1 | h1 <;> simp [h1]
      rw [hstep, hclean]
    · have hstep : normStep acc x = acc ++ [x] := by
        unfold normStep
        rw [if_neg h1, if_neg hx]
      have hclean : cleanComps (x :: xs) = x :: cleanComps xs := by
        unfold cleanComps
        rw [List.filter_cons]
        push_neg at h1
        simp [h1.1, h1.2]
      rw [hstep, hclean, List.append_assoc]
      rfl

lemma normComps_append_no_dotdot (u v : List Str)
    (h : ∀ x ∈ v, x ≠ ['.', '.']) :
    normComps (u ++ v) = normComps u ++ cleanComps v := by
  unfold normComps
  rw [List.foldl_append]
  exact foldl_normStep_no_dotdot v _ h

lemma normStep_mem {acc : List Str} {c x : Str} (hx : x ∈ normStep acc c) :
    x ∈ acc ∨ (x = c ∧ c ≠ [] ∧ c ≠ ['.'] ∧ c ≠ ['.', '.']) := by
  unfold normStep at hx
  by_cases h1 : c = [] ∨ c = ['.']
  · rw [if_pos h1] at hx
    exact Or.inl hx
  · rw [if_neg h1] at hx
    by_cases h2 : c = ['.', '.']
    · rw [if_pos h2] at hx
      exact Or.inl (List.dropLast_subset acc hx)
    · rw [if_neg h2] at hx
      rcases List.mem_append.mp hx with h3 | h3
      · exact Or.inl h3
      · push_neg at h1
        exact Or.inr ⟨by simpa using h3, h1.1, h1.2, h2⟩

lemma foldl_normStep_good (v : List Str) (acc : List Str)
    (hacc : ∀ x ∈ acc, x ≠ [] ∧ '/' ∉ x)
    (hv : ∀ x ∈ v, '/' ∉ x) :
    ∀ x ∈ v.foldl normStep acc, x ≠ [] ∧ '/' ∉ x := by
  induction v generalizing acc with
  | nil => exact hacc
  | cons c cs ih =>
    rw [List.foldl_cons]
    refine ih (normStep acc c) ?_ (fun y hy => hv y (List.mem_cons_of_mem c hy))
    intro x hx
    rcases normStep_mem hx with h | ⟨he, h1, _, _⟩
    · exact hacc x h
    · subst he
      exact ⟨h1, hv _ (List.mem_cons_self _ _)⟩

lemma normComps_good (cs : List Str) (hcs : ∀ x ∈ cs, '/' ∉ x) :
    ∀ x ∈ normComps cs, x ≠ [] ∧ '/' ∉ x :=
  foldl_normStep_good cs [] (by intro x hx; simp at hx) hcs

lemma pyStartsWith_nil_iff (q : Str) : pyStartsWith [] q = true ↔ q = [] := by
  cases q with
  | nil => simp [pyStartsWith]
  | cons a as => simp [pyStartsWith]

lemma pyStartsWith_append_cons (x : Str) (c : Char) (y : Str) :
    pyStartsWith (x ++ c :: y) (x ++ [c]) = true := by
  induction x with
  | nil =>
    show ((c == c) && pyStartsWith y []) = true
    cases y <;> simp [pyStartsWith]
  | cons a as ih =>
    show ((a == a) && pyStartsWith (as ++ c :: y) (as ++ [c])) = true
    simp [ih]

lemma mem_of_pyStartsWith {s pre : Str} {x : Char}
    (h : pyStartsWith s pre = true) (hx : x ∈ pre) : x ∈ s := by
  induction pre generalizing s with
  | nil => simp at hx
  | cons p ps ih =>
    cases s with
    | nil => simp [pyStartsWith] at h
    | cons a as =>
      have h2 : (p == a) = true ∧ pyStartsWith as ps = true := by
        simpa [pyStartsWith, Bool.and_eq_true] using h
      rcases List.mem_cons.mp hx with h3 | h3
      · subst h3
        have : x = a := by simpa using h2.1
        rw [this]
        exact List.mem_cons_self a as
      · exact List.mem_cons_of_mem a (ih h2.2 h3)

lemma slash_pre (b : Str) (p u v : Str) (hb : '/' ∉ b) (hp : '/' ∉ p) :
    (pyStartsWith (p ++ '/' :: v) (b ++ '/' :: u) = true)
      ↔ (b = p ∧ pyStartsWith v u = true) := by
  induction b generalizing p with
  | nil =>
    cases p with
    | nil =>
      show ((('/' == '/') && pyStartsWith v u) = true) ↔ _
      simp
    | cons q qs =>
      have hq : q ≠ '/' := fun he => hp (he ▸ List.mem_cons_self q qs)
      show ((('/' == q) && pyStartsWith (qs ++ '/' :: v) u) = true) ↔ _
      have : ('/' == q) = false := beq_eq_false_iff_ne.mpr (fun he => hq he.symm)
      simp [this]
  | cons c bs ih =>
    have hc : c ≠ '/' := fun he => hb (he ▸ List.mem_cons_self c bs)
    have hbs : '/' ∉ bs := fun hm => hb (List.mem_cons_of_mem c hm)
    cases p with
    | nil =>
      show (((c == '/') && pyStartsWith v (bs ++ '/' :: u)) = true) ↔ _
      have : (c == '/') = false := beq_eq_false_iff_ne.mpr hc
      simp [this]
    | cons q qs =>
      have hqs : '/' ∉ qs := fun hm => hp (List.mem_cons_of_mem q hm)
      show (((c == q) && pyStartsWith (qs ++ '/' :: v) (bs ++ '/' :: u)) = true) ↔ _
      rw [Bool.and_eq_true, ih qs hbs hqs]
      constructor
      · rintro ⟨h1, h2, h3⟩
        exact ⟨by rw [beq_iff_eq.mp h1, h2], h3⟩
      · rintro ⟨h1, h2⟩
        injection h1 with h1a h1b
        exact ⟨beq_iff_eq.mpr h1a, h1b, h2⟩

lemma startsWith_joinComps (B P : List Str)
    (hB : ∀ x ∈ B, '/' ∉ x) (hP : ∀ x ∈ P, '/' ∉ x) (hBne : B ≠ []) :
    (pyStartsWith (joinComps P) (joinComps B ++ ['/']) = true)
      ↔ (∃ C, C ≠ [] ∧ P = B ++ C) := by
  induction B generalizing P with
  | nil => exact absurd rfl hBne
  | cons b bs ih =>
    have hb : '/' ∉ b := hB b (List.mem_cons_self b bs)
    have hbs : ∀ x ∈ bs, '/' ∉ x := fun x hx => hB x (List.mem_cons_of_mem b hx)
    cases bs with
    | nil =>
      cases P with
      | nil =>
        constructor
        · intro h
          have := (pyStartsWith_nil_iff (joinComps [b] ++ ['/'])).mp h
          simp at this
        · rintro ⟨C, hC, hP2⟩
          exact absurd hP2.symm (by simp)
      | cons p ps =>
        have hp : '/' ∉ p := hP p (List.mem_cons_self p ps)
        cases ps with
        | nil =>
          constructor
          · intro h
            have hmem : '/' ∈ joinComps [b] ++ ['/'] := by simp
            have : '/' ∈ joinComps [p] := mem_of_pyStartsWith h hmem
            exact absurd this hp
          · rintro ⟨C, hC, hP2⟩
            rcases C with _ | ⟨c1, ct⟩
            · exact absurd rfl hC
            · simp at hP2
        | cons q qs =>
          have hrest : joinComps (p :: q :: qs) = p ++ '/' :: joinComps (q :: qs) := rfl
          have hleft : joinComps [b] ++ ['/'] = b ++ '/' :: [] := rfl
          rw [hrest, hleft, slash_pre b p [] (joinComps (q :: qs)) hb hp]
          constructor
          · rintro ⟨h1, _⟩
            refine ⟨q :: qs, by simp, ?_⟩
            rw [h1]
            rfl
          · rintro ⟨C, hC, hP2⟩
            injection hP2 with h1 h2
            refine ⟨h1.symm, ?_⟩
            cases hj : joinComps (q :: qs) <;> simp [pyStartsWith]
    | cons b2 bs2 =>
      cases P with
      | nil =>
        constructor
        · intro h
          have := (pyStartsWith_nil_iff _).mp h
          have h2 : joinComps (b :: b2 :: bs2) ++ ['/'] ≠ [] := by simp
          exact absurd this h2
        · rintro ⟨C, hC, hP2⟩
          exact absurd hP2.symm (by simp)
      | cons p ps =>
        have hp : '/' ∉ p := hP p (List.mem_cons_self p ps)
        have hps : ∀ x ∈ ps, '/' ∉ x := fun x hx => hP x (List.mem_cons_of_mem p hx)
        cases ps with
        | nil =>
          constructor
          · intro h
            have hmem : '/' ∈ joinComps (b :: b2 :: bs2) ++ ['/'] := by simp
            have : '/' ∈ joinComps [p] := mem_of_pyStartsWith h hmem
            exact absurd this hp
          · rintro ⟨C, hC, hP2⟩
            rcases C with _ | ⟨c1, ct⟩
            · exact absurd rfl hC
            · simp at hP2
        | cons q qs =>
          have hrest : joinComps (p :: q :: qs) = p ++ '/' :: joinComps (q :: qs) := rfl
          have hleft : joinComps (b :: b2 :: bs2) ++ ['/']
              = b ++ '/' :: (joinComps (b2 :: bs2) ++ ['/']) := by
            rw [show joinComps (b :: b2 :: bs2) = b ++ '/' :: joinComps (b2 :: bs2)
              from rfl]
            simp
          rw [hrest, hleft,
            slash_pre b p (joinComps (b2 :: bs2) ++ ['/']) (joinComps (q :: qs)) hb hp,
            ih (q :: qs) hbs hps (by simp)]
          constructor
          · rintro ⟨h1, C, hC, hP2⟩
            refine ⟨C, hC, ?_⟩
            rw [h1, hP2]
            rfl
          · rintro ⟨C, hC, hP2⟩
            injection hP2 with h1 h2
            exact ⟨h1.symm, C, hC, h2⟩

/-! ### C3: `within_dir` versus canonical containment -/

/-- Nonempty components of a slash-separated path. -/
def cleanSplit (s : Str) : List Str :=
  (pySplit '/' s).filter fun x => !(x == ([] : Str))

/-- Component-list prefix test. -/
def compsLe : List Str → List Str → Bool
  | [], _ => true
  | _ :: _, [] => false
  | x :: xs, y :: ys => x == y && compsLe xs ys

/-- The claim's notion of containment, from the spec's words: the
canonicalized absolute path of the candidate is equal to, or nested under,
the canonicalized absolute path of the base — its component list extends
the base's. -/
def containsPath_spec (base_abs p_abs : Str) : Bool :=
  compsLe (cleanSplit base_abs) (cleanSplit p_abs)

lemma compsLe_iff (xs ys : List Str) :
    compsLe xs ys = true ↔ ∃ C, ys = xs ++ C := by
  induction xs generalizing ys with
  | nil =>
    simp [compsLe]
  | cons x xt ih =>
    cases ys with
    | nil =>
      simp [compsLe]
    | cons y yt =>
      show ((x == y) && compsLe xt yt) = true ↔ _
      rw [Bool.and_eq_true, ih yt]
      constructor
      · rintro ⟨h1, C, hC⟩
        exact ⟨C, by rw [beq_iff_eq.mp h1, hC]; rfl⟩
      · rintro ⟨C, hC⟩
        injection hC with h1 h2
        exact ⟨beq_iff_eq.mpr h1.symm, C, h2⟩

lemma cleanSplit_renderAbs (B : List Str) (hB : ∀ x ∈ B, x ≠ [] ∧ '/' ∉ x) :
    cleanSplit (renderAbs B) = B := by
  unfold cleanSplit renderAbs
  cases B with
  | nil => decide
  | cons b bs =>
    rw [pySplit_cons_sep,
      pySplit_joinComps (b :: bs) (by simp) (fun x hx => (hB x hx).2)]
    rw [List.filter_cons]
    simp only [beq_self_eq_true, Bool.not_true, Bool.false_eq_true, if_false]
    apply List.filter_eq_self.mpr
    intro x hx
    simp [(hB x hx).1]

/-- Counterexample to C3: with the filesystem root as base, `within_dir`
rejects `/etc` — `base_abs + os.sep` is `"//"`, which no normalized path
starts with — although `/etc` is nested under `/`. -/
theorem C3_counterexample :
    within_dir "/srv".toList "/".toList "/etc".toList = false
      ∧ containsPath_spec (pyAbspath "/srv".toList "/".toList)
          (pyAbspath "/srv".toList "/etc".toList) = true := by
  constructor
  · decide
  · decide

/-- C3 as amended: whenever the normalized absolute path of `base` is not
the filesystem root `/`, `within_dir(base, p)` returns true exactly when
the normalized absolute path of `p` equals that of `base` or is nested
under it; for `base` normalizing to the root itself the code wrongly
rejects every proper descendant. -/
theorem C3_amended_within_iff (cwd base p : Str)
    (hroot : pyAbspath cwd base ≠ ['/']) :
    within_dir cwd base p = true
      ↔ containsPath_spec (pyAbspath cwd base) (pyAbspath cwd p) = true := by
  have hBg : ∀ x ∈ normComps (pySplit '/' (pyJoin cwd base)), x ≠ [] ∧ '/' ∉ x :=
    normComps_good _ (fun x hx => not_mem_of_mem_pySplit '/' _ x hx)
  have hPg : ∀ x ∈ normComps (pySplit '/' (pyJoin cwd p)), x ≠ [] ∧ '/' ∉ x :=
    normComps_good _ (fun x hx => not_mem_of_mem_pySplit '/' _ x hx)
  set B := normComps (pySplit '/' (pyJoin cwd base)) with hBdef
  set P := normComps (pySplit '/' (pyJoin cwd p)) with hPdef
  have habs_base : pyAbspath cwd base = renderAbs B := rfl
  have habs_p : pyAbspath cwd p = renderAbs P := rfl
  have hBne : B ≠ [] := by
    intro h
    apply hroot
    rw [habs_base, h]
    rfl
  rw [habs_base, habs_p]
  have hspec : containsPath_spec (renderAbs B) (renderAbs P) = compsLe B P := by
    unfold containsPath_spec
    rw [cleanSplit_renderAbs B hBg, cleanSplit_renderAbs P hPg]
  rw [hspec, compsLe_iff]
  show (pyStartsWith (pyAbspath cwd p) (pyAbspath cwd base ++ ['/'])
      || (pyAbspath cwd p == pyAbspath cwd base)) = true ↔ ∃ C, P = B ++ C
  rw [habs_base, habs_p, Bool.or_eq_true]
  have hstarts : (pyStartsWith (renderAbs P) (renderAbs B ++ ['/']) = true)
      ↔ (∃ C, C ≠ [] ∧ P = B ++ C) := by
    have h1 : renderAbs B ++ ['/'] = '/' :: (joinComps B ++ ['/']) := rfl
    have h2 : renderAbs P = '/' :: joinComps P := rfl
    rw [h1, h2]
    have h3 : (pyStartsWith ('/' :: joinComps P) ('/' :: (joinComps B ++ ['/'])))
        = (('/' == '/') && pyStartsWith (joinComps P) (joinComps B ++ ['/'])) := rfl
    rw [h3]
    simp only [beq_self_eq_true, Bool.true_and]
    exact startsWith_joinComps B P (fun x hx => (hBg x hx).2)
      (fun x hx => (hPg x hx).2) hBne
  have heq : ((renderAbs P == renderAbs B) = true) ↔ P = B := by
    rw [beq_iff_eq]
    constructor
    · intro h
      have := congrArg cleanSplit h
      rwa [cleanSplit_renderAbs B hBg, cleanSplit_renderAbs P hPg] at this
    · intro h
      rw [h]
  rw [hstarts, heq]
  constructor
  · rintro (⟨C, _, hP2⟩ | h)
    · exact ⟨C, hP2⟩
    · exact ⟨[], by rw [h]; simp⟩
  · rintro ⟨C, hP2⟩
    cases C with
    | nil => exact Or.inr (by rw [hP2]; simp)
    | cons c ct => exact Or.inl ⟨c :: ct, by simp, hP2⟩

/-- Witness for C3's amended claim: base `scripts` under cwd `/srv` does not
normalize to the root, and the equivalence holds for the nested candidate
`scripts/1/a.py`. -/
theorem C3_amended_within_iff_witness :
    pyAbspath "/srv".toList "scripts".toList ≠ ['/']
      ∧ (within_dir "/srv".toList "scripts".toList "scripts/1/a.py".toList = true
          ↔ containsPath_spec (pyAbspath "/srv".toList "scripts".toList)
              (pyAbspath "/srv".toList "scripts/1/a.py".toList) = true) :=
  ⟨by decide,
    C3_amended_within_iff "/srv".toList "scripts".toList "scripts/1/a.py".toList
      (by decide)⟩

/-! ### C2: paths derived by `resolve_paths` versus the uploads root -/

/-- A derived path is traversal-free: not absolute, and no `..` component. -/
def pathOK (p : Str) : Bool :=
  !(pyStartsWith p ['/']) && (pySplit '/' p).all fun x => !(x == ['.', '.'])

/-- All four filesystem paths derived for a target are traversal-free. -/
def safe_paths (t : Str) : Bool :=
  let r := resolve_paths t
  pathOK r.work_dir && pathOK r.env_path && pathOK r.req_path
    && pathOK r.full_script_path

lemma pyEndsWith_slash_decomp (s : Str) (h : pyEndsWith s ['/'] = true) :
    ∃ t, s = t ++ ['/'] := by
  unfold pyEndsWith at h
  cases hs : s.reverse with
  | nil =>
    rw [hs] at h
    simp [pyStartsWith] at h
  | cons a as =>
    rw [hs] at h
    have h2 : (('/' == a) && pyStartsWith as []) = true := h
    have ha : a = '/' := (beq_iff_eq.mp (Bool.and_eq_true_iff.mp h2).1).symm
    refine ⟨as.reverse, ?_⟩
    have hrr : s = (a :: as).reverse := by rw [← hs, List.reverse_reverse]
    rw [hrr, List.reverse_cons, ha]

lemma pyJoin_scripts (b : Str) (hb : pyStartsWith b ['/'] = false) :
    pyJoin UPLOAD_DIR b = UPLOAD_DIR ++ '/' :: b := by
  unfold pyJoin
  rw [hb]
  simp only [Bool.false_eq_true, if_false]
  rw [if_neg (by decide : ¬ (UPLOAD_DIR = []))]
  rw [show pyEndsWith UPLOAD_DIR ['/'] = false from by decide]
  simp only [Bool.false_eq_true, if_false]

lemma pyJoin_cwd_ext (cwd r : Str) :
    pyJoin cwd (UPLOAD_DIR ++ '/' :: r) = pyJoin cwd UPLOAD_DIR ++ '/' :: r := by
  unfold pyJoin
  rw [show pyStartsWith (UPLOAD_DIR ++ '/' :: r) ['/'] = false from rfl,
    show pyStartsWith UPLOAD_DIR ['/'] = false from by decide]
  simp only [Bool.false_eq_true, if_false]
  by_cases hc : cwd = []
  · rw [if_pos hc, if_pos hc]
  · rw [if_neg hc, if_neg hc]
    by_cases he : pyEndsWith cwd ['/'] = true
    · rw [he]
      simp [List.append_assoc]
    · rw [show pyEndsWith cwd ['/'] = false from by simpa using he]
      simp [List.append_assoc]

lemma normStep_scripts (M : List Str) : normStep M UPLOAD_DIR = M ++ [UPLOAD_DIR] := by
  unfold normStep
  rw [if_neg (by decide), if_neg (by decide)]

lemma normComps_join_scripts (cwd : Str) :
    ∃ M, normComps (pySplit '/' (pyJoin cwd UPLOAD_DIR)) = M ++ [UPLOAD_DIR] := by
  unfold pyJoin
  rw [show pyStartsWith UPLOAD_DIR ['/'] = false from by decide]
  simp only [Bool.false_eq_true, if_false]
  by_cases hc : cwd = []
  · rw [if_pos hc]
    exact ⟨[], by decide⟩
  · rw [if_neg hc]
    by_cases he : pyEndsWith cwd ['/'] = true
    · rw [he]
      simp only [if_true]
      obtain ⟨t, ht⟩ := pyEndsWith_slash_decomp cwd he
      rw [ht, show (t ++ ['/']) ++ UPLOAD_DIR = t ++ '/' :: UPLOAD_DIR from by simp]
      rw [pySplit_append_sep,
        pySplit_of_not_mem '/' UPLOAD_DIR (by decide),
        normComps_append_no_dotdot _ _ (by
          intro x hx
          simp only [List.mem_singleton] at hx
          rw [hx]
          decide)]
      exact ⟨normComps (pySplit '/' t),
        by rw [show cleanComps [UPLOAD_DIR] = [UPLOAD_DIR] from by decide]⟩
    · rw [show pyEndsWith cwd ['/'] = false from by simpa using he]
      simp only [Bool.false_eq_true, if_false]
      rw [pySplit_append_sep,
        pySplit_of_not_mem '/' UPLOAD_DIR (by decide),
        normComps_append_no_dotdot _ _ (by
          intro x hx
          simp only [List.mem_singleton] at hx
          rw [hx]
          decide)]
      exact ⟨normComps (pySplit '/' cwd),
        by rw [show cleanComps [UPLOAD_DIR] = [UPLOAD_DIR] from by decide]⟩

lemma within_scripts (cwd s : Str)
    (hshape : s = UPLOAD_DIR ∨ ∃ r, s = UPLOAD_DIR ++ '/' :: r)
    (hdd : ∀ x ∈ pySplit '/' s, x ≠ ['.', '.']) :
    within_dir cwd UPLOAD_DIR s = true := by
  rcases hshape with hs | ⟨r, hs⟩
  · subst hs
    show (pyStartsWith (pyAbspath cwd UPLOAD_DIR)
        (pyAbspath cwd UPLOAD_DIR ++ ['/'])
        || (pyAbspath cwd UPLOAD_DIR == pyAbspath cwd UPLOAD_DIR)) = true
    simp
  · subst hs
    have hddr : ∀ x ∈ pySplit '/' r, x ≠ ['.', '.'] := by
      intro x hx
      refine hdd x ?_
      rw [pySplit_append_sep]
      exact List.mem_append_right _ hx
    show (pyStartsWith (pyAbspath cwd (UPLOAD_DIR ++ '/' :: r))
        (pyAbspath cwd UPLOAD_DIR ++ ['/'])
        || (pyAbspath cwd (UPLOAD_DIR ++ '/' :: r) == pyAbspath cwd UPLOAD_DIR))
      = true
    unfold pyAbspath
    rw [pyJoin_cwd_ext, pySplit_append_sep,
      normComps_append_no_dotdot _ _ hddr]
    obtain ⟨M, hM⟩ := normComps_join_scripts cwd
    cases hC : cleanComps (pySplit '/' r) with
    | nil =>
      rw [List.append_nil]
      simp
    | cons c0 cs =>
      apply Bool.or_inl
      have hNne : normComps (pySplit '/' (pyJoin cwd UPLOAD_DIR)) ≠ [] := by
        rw [hM]
        simp
      unfold renderAbs
      rw [joinComps_append _ (c0 :: cs) hNne (by simp)]
      show (('/' == '/')
          && pyStartsWith
            (joinComps (normComps (pySplit '/' (pyJoin cwd UPLOAD_DIR)))
              ++ '/' :: joinComps (c0 :: cs))
            (joinComps (normComps (pySplit '/' (pyJoin cwd UPLOAD_DIR))) ++ ['/']))
        = true
      simp [pyStartsWith_append_cons]

lemma path_within (cwd p : Str) (hOK : pathOK p = true)
    (hshape : p = UPLOAD_DIR ∨ ∃ r, p = UPLOAD_DIR ++ '/' :: r) :
    within_dir cwd UPLOAD_DIR p = true := by
  refine within_scripts cwd p hshape ?_
  intro x hx
  have h2 := (Bool.and_eq_true_iff.mp hOK).2
  have := List.all_eq_true.mp h2 x hx
  simpa using this

lemma shape_of_join_scripts (b : Str)
    (hOK : pathOK (pyJoin UPLOAD_DIR b) = true) :
    pyJoin UPLOAD_DIR b = UPLOAD_DIR ∨ ∃ r, pyJoin UPLOAD_DIR b = UPLOAD_DIR ++ '/' :: r := by
  by_cases hb : pyStartsWith b ['/'] = true
  · exfalso
    unfold pyJoin at hOK
    rw [if_pos hb] at hOK
    unfold pathOK at hOK
    rw [hb] at hOK
    simp at hOK
  · right
    rw [pyJoin_scripts b (by simpa using hb)]
    exact ⟨b, rfl⟩

lemma shape_of_join_under (y b : Str)
    (hOK : pathOK (pyJoin (UPLOAD_DIR ++ '/' :: y) b) = true) :
    pyJoin (UPLOAD_DIR ++ '/' :: y) b = UPLOAD_DIR
      ∨ ∃ r, pyJoin (UPLOAD_DIR ++ '/' :: y) b = UPLOAD_DIR ++ '/' :: r := by
  by_cases hb : pyStartsWith b ['/'] = true
  · exfalso
    unfold pyJoin at hOK
    rw [if_pos hb] at hOK
    unfold pathOK at hOK
    rw [hb] at hOK
    simp at hOK
  · right
    unfold pyJoin
    rw [show pyStartsWith b ['/'] = false from by simpa using hb]
    simp only [Bool.false_eq_true, if_false]
    rw [if_neg (by simp : ¬ (UPLOAD_DIR ++ '/' :: y = []))]
    by_cases he : pyEndsWith (UPLOAD_DIR ++ '/' :: y) ['/'] = true
    · rw [he]
      simp only [if_true]
      exact ⟨y ++ b, by simp⟩
    · rw [show pyEndsWith (UPLOAD_DIR ++ '/' :: y) ['/'] = false from by simpa using he]
      simp only [Bool.false_eq_true, if_false]
      exact ⟨y ++ '/' :: b, by simp⟩

/-- Counterexample to C2: `resolve_paths` applies no traversal guard — for
the repo-form identifier `..|x` the derived work directory is `scripts/..`,
which normalizes to the parent of the uploads root (here cwd `/srv`), and
for a legacy identifier the work directory is the uploads root itself, not
strictly inside it. -/
theorem C2_counterexample :
    within_dir "/srv".toList UPLOAD_DIR (resolve_paths "..|x".toList).work_dir
        = false
      ∧ (resolve_paths "x".toList).work_dir = UPLOAD_DIR := by
  constructor
  · decide
  · decide

/-- C2 as amended: for every identifier whose four derived filesystem paths
are traversal-free (`safe_paths`: none is absolute and none carries a `..`
component — violated exactly by ids smuggling `..` or absolute components),
every derived path resolves inside the uploads root in the sense of the
code's own containment check `within_dir` (which also accepts the root
itself, as required by legacy targets whose work directory is the root). -/
theorem C2_amended_paths_within (cwd t : Str) (hsafe : safe_paths t = true) :
    within_dir cwd UPLOAD_DIR (resolve_paths t).work_dir = true
      ∧ within_dir cwd UPLOAD_DIR (resolve_paths t).env_path = true
      ∧ within_dir cwd UPLOAD_DIR (resolve_paths t).req_path = true
      ∧ within_dir cwd UPLOAD_DIR (resolve_paths t).full_script_path = true := by
  by_cases hu : is_user_file_id t = true
  · simp only [safe_paths, resolve_paths, hu, if_true] at hsafe ⊢
    obtain ⟨⟨⟨h1, h2⟩, h3⟩, h4⟩ := by
      simpa only [Bool.and_eq_true_iff] using hsafe
    have hb : pyStartsWith ((splitFirst '|' t).1.drop 1) ['/'] = false := by
      by_contra hcon
      have hb2 : pyStartsWith ((splitFirst '|' t).1.drop 1) ['/'] = true := by
        simpa using hcon
      unfold pyJoin at h1
      rw [if_pos hb2] at h1
      unfold pathOK at h1
      rw [hb2] at h1
      simp at h1
    rw [pyJoin_scripts _ hb] at h1 h2 h3 h4 ⊢
    exact ⟨path_within cwd _ h1 (Or.inr ⟨_, rfl⟩),
      path_within cwd _ h2 (shape_of_join_under _ _ h2),
      path_within cwd _ h3 (shape_of_join_under _ _ h3),
      path_within cwd _ h4 (shape_of_join_under _ _ h4)⟩
  · by_cases hr : is_repo_id t = true
    · simp only [safe_paths, resolve_paths, hu, Bool.false_eq_true, if_false, hr,
        if_true] at hsafe ⊢
      obtain ⟨⟨⟨h1, h2⟩, h3⟩, h4⟩ := by
        simpa only [Bool.and_eq_true_iff] using hsafe
      have hb : pyStartsWith (splitFirst '|' t).1 ['/'] = false := by
        by_contra hcon
        have hb2 : pyStartsWith (splitFirst '|' t).1 ['/'] = true := by
          simpa using hcon
        unfold pyJoin at h1
        rw [if_pos hb2] at h1
        unfold pathOK at h1
        rw [hb2] at h1
        simp at h1
      rw [pyJoin_scripts _ hb] at h1 h2 h3 h4 ⊢
      exact ⟨path_within cwd _ h1 (Or.inr ⟨_, rfl⟩),
        path_within cwd _ h2 (shape_of_join_under _ _ h2),
        path_within cwd _ h3 (shape_of_join_under _ _ h3),
        path_within cwd _ h4 (shape_of_join_under _ _ h4)⟩
    · simp only [safe_paths, resolve_paths, hu, Bool.false_eq_true, if_false, hr]
        at hsafe ⊢
      obtain ⟨⟨⟨h1, h2⟩, h3⟩, h4⟩ := by
        simpa only [Bool.and_eq_true_iff] using hsafe
      exact ⟨path_within cwd _ h1 (Or.inl rfl),
        path_within cwd _ h2 (shape_of_join_scripts _ h2),
        path_within cwd _ h3 (shape_of_join_scripts _ h3),
        path_within cwd _ h4 (shape_of_join_scripts _ h4)⟩

/-- Witness for C2's amended claim: the user-file id `u7|job.py` has
traversal-free paths and all four resolve inside the uploads root under
cwd `/srv`. -/
theorem C2_amended_paths_within_witness :
    safe_paths "u7|job.py".toList = true
      ∧ (within_dir "/srv".toList UPLOAD_DIR
            (resolve_paths "u7|job.py".toList).work_dir = true
          ∧ within_dir "/srv".toList UPLOAD_DIR
              (resolve_paths "u7|job.py".toList).env_path = true
          ∧ within_dir "/srv".toList UPLOAD_DIR
              (resolve_paths "u7|job.py".toList).req_path = true
          ∧ within_dir "/srv".toList UPLOAD_DIR
              (resolve_paths "u7|job.py".toList).full_script_path = true) :=
  ⟨by decide, C2_amended_paths_within "/srv".toList "u7|job.py".toList (by decide)⟩

end Oliver
